import Mathlib

/-!
Formal model of the number-theoretic core of the metcs789 project
(RSA, ElGamal, Blum-Blum-Shub, Miller-Rabin, Pollard p-1).

Python's arbitrary-precision integers are modelled by `Int`.  Python's `%`
and `//` operators are floor-convention modulus and division, which are
exactly `Int.fmod` and `Int.fdiv`.  Python `while` loops are modelled by
structurally recursive functions that carry an explicit iteration budget
("fuel") that is provably at least the number of iterations the Python
loop performs, so every definition is executable by the kernel;
`for`-loops use their exact iteration count.  Functions that can `raise`
return `Option`, with `none` for the raising branch.
-/

/-! ## rsa_operations.py -/

/-- Loop of `extended_gcd` (rsa_operations.py, also `egcd` in the ElGamal
files, the three copies are textually identical).  The Python function
recurses as `extended_gcd(b, a % b)` until `b == 0`; since `|a % b| < |b|`
for `b ≠ 0`, `b.natAbs + 1` units of fuel always suffice. -/
def egcdLoop : Nat → Int → Int → Int × Int × Int
  | 0, a, _ => (a, 1, 0)
  | fuel + 1, a, b =>
    if b = 0 then (a, 1, 0)
    else
      let t := egcdLoop fuel b (a.fmod b)
      (t.1, t.2.2, t.2.1 - (a.fdiv b) * t.2.2)

/-- Extended Euclidean Algorithm: returns `(g, x, y)` with `a*x + b*y = g`
(rsa_operations.py `extended_gcd`). -/
def extended_gcd (a b : Int) : Int × Int × Int := egcdLoop (b.natAbs + 1) a b

/-- Modular inverse via the extended Euclidean algorithm
(rsa_operations.py `mod_inverse`, identical to `modinv` in the ElGamal
files).  Python raises `ValueError` when `g != 1`; that branch is `none`. -/
def mod_inverse (a m : Int) : Option Int :=
  let t := extended_gcd (a.fmod m) m
  if t.1 ≠ 1 then none else some (t.2.1.fmod m)

/-- Loop of `mod_pow`: `while exponent > 0` square-and-multiply.  The
exponent at least halves each iteration, so `exponent.toNat` units of fuel
always suffice. -/
def modPowLoop : Nat → Int → Int → Int → Int → Int
  | 0, result, _, _, _ => result
  | fuel + 1, result, base, exponent, modulus =>
    if 0 < exponent then
      let result' := if exponent.fmod 2 = 1 then (result * base).fmod modulus else result
      modPowLoop fuel result' ((base * base).fmod modulus) (exponent.fdiv 2) modulus
    else result

/-- Fast modular exponentiation (rsa_operations.py `mod_pow`). -/
def mod_pow (base exponent modulus : Int) : Int :=
  modPowLoop exponent.toNat 1 (base.fmod modulus) exponent modulus

/-- Python's built-in three-argument `pow(b, e, m)`, used by
blum_blum_shub.py, pollard_rho.py and the ElGamal files.  For a
nonnegative exponent (the only way it is called here) it returns
`b ^ e mod m` reduced into Python's `%` convention. -/
def pyPow (b e m : Int) : Int := (b ^ e.toNat).fmod m

/-- RSA decryption by the Chinese Remainder Theorem
(rsa_operations.py `rsa_decrypt_crt`).  `mod_inverse` can raise, hence
`Option`. -/
def rsa_decrypt_crt (ciphertext d p q : Int) : Option Int :=
  let n := p * q
  let dp := d.fmod (p - 1)
  let dq := d.fmod (q - 1)
  let mp := mod_pow ciphertext dp p
  let mq := mod_pow ciphertext dq q
  match mod_inverse q p with
  | none => none
  | some q_inv =>
    let h := (q_inv * (mp - mq)).fmod p
    let m := mq + h * q
    some (m.fmod n)

/-! ## pollard_rho.py -/

/-- Body of `factor_pollard_p1`'s `for` loop: `a = pow(a, j, n)`,
`d = gcd(a - 1, n)`, return `d` when `1 < d < n`, else continue with
`j + 1`.  `math.gcd` returns the nonnegative gcd, i.e. `Int.gcd`. -/
def pollardLoop : Nat → Int → Int → Int → Option Int
  | 0, _, _, _ => none
  | steps + 1, n, a, j =>
    let a' := pyPow a j n
    let d : Int := Int.gcd (a' - 1) n
    if 1 < d ∧ d < n then some d
    else pollardLoop steps n a' (j + 1)

/-- Pollard's p-1 factorisation (pollard_rho.py `factor_pollard_p1`).
`for _ in range(2, B + 1)` performs exactly `max (B - 1) 0` iterations
with `j = 2, 3, ...`; Python's `None` sentinel is `none`. -/
def factor_pollard_p1 (n B : Int) : Option Int :=
  pollardLoop (B - 1).toNat n 2 2

/-! ## blum_blum_shub.py : Miller-Rabin -/

/-- Decomposition loop of `miller_rabin`: `while d % 2 == 0: d //= 2; r += 1`.
Starting from `d = n - 1 ≥ 4` the loop runs at most `log2 d < d` times, so
`d.toNat` units of fuel always suffice. -/
def oddifyLoop : Nat → Int → Nat → Int × Nat
  | 0, d, r => (d, r)
  | fuel + 1, d, r =>
    if d.fmod 2 = 0 then oddifyLoop fuel (d.fdiv 2) (r + 1) else (d, r)

/-- Inner witness loop of one Miller-Rabin round:
`for _ in range(r - 1): x = pow(x, 2, n); if x == n - 1: break` with the
`for ... else: return False` clause; `true` means the round passed. -/
def mrSquareLoop (n : Int) : Nat → Int → Bool
  | 0, _ => false
  | k + 1, x =>
    let x' := pyPow x 2 n
    if x' = n - 1 then true else mrSquareLoop n k x'

/-- One Miller-Rabin round for witness `a` (the body of the
`for _ in range(testIterations)` loop in blum_blum_shub.py). -/
def mrRound (n d : Int) (r : Nat) (a : Int) : Bool :=
  let x := pyPow a d n
  if x = 1 ∨ x = n - 1 then true
  else mrSquareLoop n (r - 1) x

/-- Miller-Rabin primality test (blum_blum_shub.py `miller_rabin`).  The
random draws `a = random.randint(2, n - 2)`, one per test iteration, are
supplied as the list `witnesses`; the result is a deterministic function
of them. -/
def miller_rabin (n : Int) (witnesses : List Int) : Bool :=
  if n ≤ 1 then false
  else if n ≤ 3 then true
  else if n.fmod 2 = 0 then false
  else if n.fmod 3 = 0 then false
  else
    let dr := oddifyLoop (n - 1).toNat (n - 1) 0
    witnesses.all (mrRound n dr.1 dr.2)

/-! ## blum_blum_shub.py : bit generator -/

/-- The `for _ in range(iterations)` loop of `blum_blum_shub`:
`x = pow(x, 2, n); b.append(x % 2)`.  Returns the bit list and the final
`x` (which the method stores back into `self.seed`). -/
def bbsLoop (n : Int) : Nat → Int → List Int × Int
  | 0, x => ([], x)
  | k + 1, x =>
    let x' := pyPow x 2 n
    let t := bbsLoop n k x'
    (x'.fmod 2 :: t.1, t.2)

/-- One call of the BBS bit generator (blum_blum_shub.py
`BlumBlumShub.blum_blum_shub`) on the state `(p, q, seed)`: the two
`assert p % 4 == 3` / `assert q % 4 == 3` checks and the
`ValueError` for a seed not coprime to `n` are the `none` branches;
otherwise it squares the stored seed once (`x = pow(seed, 2, n)`), runs
the loop, and returns the bits together with the new stored seed. -/
def blum_blum_shub (p q seed : Int) (iterations : Nat) : Option (List Int × Int) :=
  if p.fmod 4 ≠ 3 then none
  else if q.fmod 4 ≠ 3 then none
  else
    let n := p * q
    if Int.gcd seed n ≠ 1 then none
    else some (bbsLoop n iterations (pyPow seed 2 n))

/-! ## elgamal_sending_project.py -/

structure ElGamalPublicKey where
  p : Int
  g : Int
  y : Int
deriving DecidableEq

structure ElGamalPrivateKey where
  p : Int
  g : Int
  x : Int
deriving DecidableEq

/-- ElGamal key generation (elgamal_sending_project.py `elgamal_keygen`).
The secret exponent `x = secrets.randbelow(p - 2) + 1 ∈ [1, p - 2]` is
supplied as a parameter; the two `ValueError` guards are `none`. -/
def elgamal_keygen (p g x : Int) : Option (ElGamalPublicKey × ElGamalPrivateKey) :=
  if p ≤ 2 then none
  else if ¬(1 < g ∧ g < p) then none
  else some ({ p := p, g := g, y := pyPow g x p }, { p := p, g := g, x := x })

/-- ElGamal encryption (elgamal_sending_project.py `elgamal_encrypt`).
The ephemeral `k = secrets.randbelow(p - 2) + 1 ∈ [1, p - 2]` is supplied
as a parameter; the message-range `ValueError` is `none`. -/
def elgamal_encrypt (m : Int) (pub : ElGamalPublicKey) (k : Int) : Option (Int × Int) :=
  if ¬(0 < m ∧ m < pub.p) then none
  else
    let c1 := pyPow pub.g k pub.p
    let s := pyPow pub.y k pub.p
    let c2 := (m * s).fmod pub.p
    some (c1, c2)

/-- ElGamal decryption (elgamal_sending_project.py `elgamal_decrypt`,
identical in elgamal_decrypt.py and elgamal_receiving_project.py).
`modinv` may raise, hence `Option`. -/
def elgamal_decrypt (ciphertext : Int × Int) (priv : ElGamalPrivateKey) : Option Int :=
  let s := pyPow ciphertext.1 priv.x priv.p
  match mod_inverse s priv.p with
  | none => none
  | some s_inv => some ((ciphertext.2 * s_inv).fmod priv.p)

/-! ## String encoding (elgamal_sending_project.py / elgamal_decrypt.py)

A Python `str` is represented by its UTF-8 byte sequence `List Nat`
(each entry `< 256`); `msg.encode("utf-8")` / `bytes.decode("utf-8")`
are the runtime codec, so encoding is the identity on this
representation and decoding checks UTF-8 validity of the bytes. -/

/-- Python `int.from_bytes(bs, byteorder="big")`. -/
def fromBytes (bs : List Nat) : Nat := bs.foldl (fun acc b => acc * 256 + b) 0

/-- elgamal_sending_project.py `encode_string_to_int`: big-endian packing
of the message's UTF-8 bytes. -/
def encode_string_to_int (bs : List Nat) : Nat := fromBytes bs

/-- Python `int.bit_length()` for nonnegative integers, as a fuel loop
(`n` itself bounds the number of halvings). -/
def bitLenLoop : Nat → Nat → Nat
  | 0, _ => 0
  | fuel + 1, n => if n = 0 then 0 else bitLenLoop fuel (n / 2) + 1

/-- Python `n.bit_length()` for `n ≥ 0`. -/
def bitLength (n : Nat) : Nat := bitLenLoop n n

/-- Little-endian digit extraction underlying `int.to_bytes`. -/
def toBytesLoop : Nat → Nat → List Nat
  | 0, _ => []
  | len + 1, n => n % 256 :: toBytesLoop len (n / 256)

/-- Python `n.to_bytes(len, byteorder="big")`, digits most significant
first (the `OverflowError` case `n ≥ 256 ^ len` is checked by the
caller `decode_int_to_string`). -/
def toBytesBE (len n : Nat) : List Nat := (toBytesLoop len n).reverse

/-- Continuation byte of a UTF-8 multi-byte sequence. -/
def isCont (b : Nat) : Bool := decide (128 ≤ b ∧ b ≤ 191)

/-- Modelled from the spec: the Python runtime UTF-8 codec used by
`bytes.decode("utf-8")` is not part of the repository; this is the
standard UTF-8 (RFC 3629) byte-sequence validity check that determines
whether decoding succeeds or raises the spec's `EncodingError`.  Each
step consumes at least one byte, so the list length bounds the number of
steps. -/
def utf8ValidLoop : Nat → List Nat → Bool
  | 0, bs => bs.isEmpty
  | _ + 1, [] => true
  | fuel + 1, b1 :: rest =>
    if b1 ≤ 127 then utf8ValidLoop fuel rest
    else if 194 ≤ b1 ∧ b1 ≤ 223 then
      match rest with
      | b2 :: rest2 => isCont b2 && utf8ValidLoop fuel rest2
      | [] => false
    else if b1 = 224 then
      match rest with
      | b2 :: b3 :: rest3 =>
        decide (160 ≤ b2 ∧ b2 ≤ 191) && isCont b3 && utf8ValidLoop fuel rest3
      | _ => false
    else if (225 ≤ b1 ∧ b1 ≤ 236) ∨ (238 ≤ b1 ∧ b1 ≤ 239) then
      match rest with
      | b2 :: b3 :: rest3 => isCont b2 && isCont b3 && utf8ValidLoop fuel rest3
      | _ => false
    else if b1 = 237 then
      match rest with
      | b2 :: b3 :: rest3 =>
        decide (128 ≤ b2 ∧ b2 ≤ 159) && isCont b3 && utf8ValidLoop fuel rest3
      | _ => false
    else if b1 = 240 then
      match rest with
      | b2 :: b3 :: b4 :: rest4 =>
        decide (144 ≤ b2 ∧ b2 ≤ 191) && isCont b3 && isCont b4 && utf8ValidLoop fuel rest4
      | _ => false
    else if 241 ≤ b1 ∧ b1 ≤ 243 then
      match rest with
      | b2 :: b3 :: b4 :: rest4 =>
        isCont b2 && isCont b3 && isCont b4 && utf8ValidLoop fuel rest4
      | _ => false
    else if b1 = 244 then
      match rest with
      | b2 :: b3 :: b4 :: rest4 =>
        decide (128 ≤ b2 ∧ b2 ≤ 143) && isCont b3 && isCont b4 && utf8ValidLoop fuel rest4
      | _ => false
    else false

/-- A byte list is a valid UTF-8 encoding. -/
def validUTF8 (bs : List Nat) : Bool := utf8ValidLoop bs.length bs

/-- elgamal_sending_project.py `decode_int_to_string`: recover
`(n.bit_length() + 7) // 8` big-endian bytes and decode them as UTF-8;
`none` models both `OverflowError` from `to_bytes` (never reachable with
this length) and the `UnicodeDecodeError`/`EncodingError` for bytes that
are not valid UTF-8. -/
def decode_int_to_string (n : Nat) : Option (List Nat) :=
  let len := (bitLength n + 7) / 8
  if 256 ^ len ≤ n then none
  else
    let bs := toBytesBE len n
    if validUTF8 bs then some bs else none

/-! ## Helper lemmas: the extended Euclidean algorithm -/

theorem fmod_natAbs_lt (a : Int) {b : Int} (hb : b ≠ 0) :
    (a.fmod b).natAbs < b.natAbs := by
  rcases b with n | n
  · have hn : (0 : Int) < Int.ofNat n := by
      rcases Nat.eq_zero_or_pos n with h | h
      · subst h; simp at hb
      · exact Int.ofNat_pos.mpr h
    have h1 := Int.fmod_nonneg' a hn
    have h2 := Int.fmod_lt_of_pos a hn
    omega
  · rcases a with m | m
    · cases m with
      | zero =>
        show (Int.fmod 0 (Int.negSucc n)).natAbs < (Int.negSucc n).natAbs
        rw [Int.zero_fmod]
        simp [Int.natAbs_negSucc]
      | succ m' =>
        have he : Int.fmod (Int.ofNat (m' + 1)) (Int.negSucc n) =
            Int.subNatNat (m' % (n + 1)) n := rfl
        rw [he, Int.subNatNat_eq_coe]
        have hlt : m' % (n + 1) < n + 1 := Nat.mod_lt _ (Nat.succ_pos n)
        simp only [Int.natAbs_negSucc]
        omega
    · have he : Int.fmod (Int.negSucc m) (Int.negSucc n) =
          -Int.ofNat ((m + 1) % (n + 1)) := rfl
      rw [he]
      have hlt : (m + 1) % (n + 1) < n + 1 := Nat.mod_lt _ (Nat.succ_pos n)
      simp only [Int.natAbs_negSucc, Int.natAbs_neg]
      simpa using hlt

theorem egcdLoop_bezout (fuel : Nat) : ∀ a b : Int, b.natAbs < fuel →
    a * (egcdLoop fuel a b).2.1 + b * (egcdLoop fuel a b).2.2 = (egcdLoop fuel a b).1 := by
  induction fuel with
  | zero => intro a b h; omega
  | succ fuel ih =>
    intro a b h
    by_cases hb : b = 0
    · subst hb; simp [egcdLoop]
    · have hlt : (a.fmod b).natAbs < fuel :=
        lt_of_lt_of_le (fmod_natAbs_lt a hb) (by omega)
      have hrec := ih b (a.fmod b) hlt
      simp only [egcdLoop, if_neg hb]
      have hid := Int.fdiv_add_fmod a b
      set t := egcdLoop fuel b (a.fmod b) with ht
      linear_combination hrec - t.2.2 * hid

theorem egcdLoop_dvd (fuel : Nat) : ∀ a b : Int, b.natAbs < fuel →
    (egcdLoop fuel a b).1 ∣ a ∧ (egcdLoop fuel a b).1 ∣ b := by
  induction fuel with
  | zero => intro a b h; omega
  | succ fuel ih =>
    intro a b h
    by_cases hb : b = 0
    · subst hb; simp [egcdLoop]
    · have hlt : (a.fmod b).natAbs < fuel :=
        lt_of_lt_of_le (fmod_natAbs_lt a hb) (by omega)
      obtain ⟨h1, h2⟩ := ih b (a.fmod b) hlt
      simp only [egcdLoop, if_neg hb]
      refine ⟨?_, h1⟩
      have hid := Int.fdiv_add_fmod a b
      calc (egcdLoop fuel b (a.fmod b)).1 ∣ b * a.fdiv b + a.fmod b :=
        Dvd.dvd.add (Dvd.dvd.mul_right h1 _) h2
      _ = a := hid

theorem egcdLoop_pos (fuel : Nat) : ∀ a b : Int, b.natAbs < fuel → 0 < b →
    0 < (egcdLoop fuel a b).1 := by
  induction fuel with
  | zero => intro a b h; omega
  | succ fuel ih =>
    intro a b h hbpos
    have hb : b ≠ 0 := ne_of_gt hbpos
    simp only [egcdLoop, if_neg hb]
    rcases lt_or_eq_of_le (Int.fmod_nonneg' a hbpos) with hf | hf
    · exact ih b (a.fmod b) (lt_of_lt_of_le (fmod_natAbs_lt a hb) (by omega)) hf
    · rw [← hf]
      cases fuel with
      | zero => omega
      | succ fuel2 => simpa [egcdLoop] using hbpos

theorem extended_gcd_bezout (a b : Int) :
    a * (extended_gcd a b).2.1 + b * (extended_gcd a b).2.2 = (extended_gcd a b).1 :=
  egcdLoop_bezout (b.natAbs + 1) a b (Nat.lt_succ_self _)

theorem extended_gcd_dvd (a b : Int) :
    (extended_gcd a b).1 ∣ a ∧ (extended_gcd a b).1 ∣ b :=
  egcdLoop_dvd (b.natAbs + 1) a b (Nat.lt_succ_self _)

theorem extended_gcd_pos (a : Int) {b : Int} (hb : 0 < b) :
    0 < (extended_gcd a b).1 :=
  egcdLoop_pos (b.natAbs + 1) a b (Nat.lt_succ_self _) hb

theorem extended_gcd_eq_gcd (a : Int) {b : Int} (hb : 0 < b) :
    (extended_gcd a b).1 = Int.gcd a b := by
  obtain ⟨h1, h2⟩ := extended_gcd_dvd a b
  refine Int.gcd_greatest (le_of_lt (extended_gcd_pos a hb)) h1 h2 ?_
  intro e he1 he2
  have hbz := extended_gcd_bezout a b
  calc e ∣ a * (extended_gcd a b).2.1 + b * (extended_gcd a b).2.2 :=
    Dvd.dvd.add (Dvd.dvd.mul_right he1 _) (Dvd.dvd.mul_right he2 _)
  _ = (extended_gcd a b).1 := hbz

theorem int_gcd_fmod (a m : Int) :
    Int.gcd (a.fmod m) m = Int.gcd a m := by
  rw [Int.fmod_def]
  apply Nat.dvd_antisymm
  · rw [← Int.natCast_dvd_natCast]
    apply Int.dvd_gcd
    · have h1 : ((Int.gcd (a - m * a.fdiv m) m : Nat) : Int) ∣ a - m * a.fdiv m :=
        Int.gcd_dvd_left
      have h2 : ((Int.gcd (a - m * a.fdiv m) m : Nat) : Int) ∣ m := Int.gcd_dvd_right
      have := Dvd.dvd.add h1 (Dvd.dvd.mul_right h2 (a.fdiv m))
      simpa using this
    · exact Int.gcd_dvd_right
  · rw [← Int.natCast_dvd_natCast]
    apply Int.dvd_gcd
    · have h1 : ((Int.gcd a m : Nat) : Int) ∣ a := Int.gcd_dvd_left
      have h2 : ((Int.gcd a m : Nat) : Int) ∣ m := Int.gcd_dvd_right
      exact Dvd.dvd.sub h1 (Dvd.dvd.mul_right h2 _)
    · exact Int.gcd_dvd_right

/-! ## Helper lemmas: mod_inverse -/

theorem mod_inverse_unfold (a m : Int) :
    mod_inverse a m =
      if (extended_gcd (a.fmod m) m).1 ≠ 1 then none
      else some ((extended_gcd (a.fmod m) m).2.1.fmod m) := rfl

theorem mod_inverse_none_iff (a : Int) {m : Int} (hm : 1 < m) :
    mod_inverse a m = none ↔ Int.gcd a m ≠ 1 := by
  have hm0 : (0 : Int) < m := by omega
  have hg : (extended_gcd (a.fmod m) m).1 = Int.gcd a m := by
    rw [extended_gcd_eq_gcd _ hm0, int_gcd_fmod]
  rw [mod_inverse_unfold, hg]
  by_cases h : Int.gcd a m = 1
  · simp [h]
  · have hne : ((Int.gcd a m : Nat) : Int) ≠ 1 := by
      intro hc
      exact h (by exact_mod_cast hc)
    simp [hne, h]

theorem mod_inverse_some_spec {a m r : Int} (hm : 1 < m)
    (h : mod_inverse a m = some r) :
    0 ≤ r ∧ r < m ∧ (a * r).fmod m = 1 := by
  have hm0 : (0 : Int) < m := by omega
  have hmle : (0 : Int) ≤ m := le_of_lt hm0
  rw [mod_inverse_unfold] at h
  by_cases hg1 : (extended_gcd (a.fmod m) m).1 = 1
  · simp only [hg1, ne_eq, not_true_eq_false, if_false, Option.some.injEq] at h
    subst h
    set x := (extended_gcd (a.fmod m) m).2.1 with hx
    refine ⟨Int.fmod_nonneg' x hm0, Int.fmod_lt_of_pos x hm0, ?_⟩
    have hbz := extended_gcd_bezout (a.fmod m) m
    rw [hg1] at hbz
    -- hbz : (a.fmod m) * x + m * y = 1
    have h1 : a * x.fmod m ≡ a * x [ZMOD m] :=
      Int.ModEq.mul_left a (by rw [Int.fmod_eq_emod _ hmle]; exact Int.mod_modEq x m)
    have h2 : a * x ≡ (a.fmod m) * x [ZMOD m] :=
      Int.ModEq.mul_right x (by rw [Int.fmod_eq_emod _ hmle]; exact (Int.mod_modEq a m).symm)
    have h3 : (a.fmod m) * x ≡ 1 [ZMOD m] := by
      rw [Int.modEq_iff_dvd]
      exact ⟨(extended_gcd (a.fmod m) m).2.2, by linarith⟩
    have h4 : a * x.fmod m ≡ 1 [ZMOD m] := (h1.trans h2).trans h3
    have h5 : (a * x.fmod m) % m = 1 % m := h4
    rw [Int.fmod_eq_emod _ hmle, h5, Int.emod_eq_of_lt (by omega) (by omega)]
  · simp [hg1] at h

theorem mod_inverse_unique {a m r s : Int} (hm : 1 < m) (hg : Int.gcd a m = 1)
    (hr : (a * r).fmod m = 1) (hs : (a * s).fmod m = 1)
    (hr0 : 0 ≤ r) (hr1 : r < m) (hs0 : 0 ≤ s) (hs1 : s < m) : r = s := by
  have hm0 : (0 : Int) < m := by omega
  have hmle : (0 : Int) ≤ m := le_of_lt hm0
  rw [Int.fmod_eq_emod _ hmle] at hr hs
  have h1 : a * r ≡ a * s [ZMOD m] := by
    show (a * r) % m = (a * s) % m
    rw [hr, hs]
  have h2 := Int.ModEq.cancel_left_div_gcd hm0 h1
  rw [Int.gcd_comm m a, hg] at h2
  have h3 : r ≡ s [ZMOD m] := by simpa using h2
  have h4 : r % m = s % m := h3
  rwa [Int.emod_eq_of_lt hr0 hr1, Int.emod_eq_of_lt hs0 hs1] at h4

theorem mod_inverse_gcd_one {a m : Int} (hm : 1 < m) (hg : Int.gcd a m = 1) :
    ∃ r, mod_inverse a m = some r := by
  rcases h : mod_inverse a m with _ | r
  · exact absurd hg ((mod_inverse_none_iff a hm).mp h)
  · exact ⟨r, rfl⟩

/-! ## Claim C7 : extended_gcd -/

/-- C7 (counterexample): the claim also asserts `g ≥ 0` for all integer
inputs, but `extended_gcd(-5, 0)` returns `(-5, 1, 0)`, whose first
component is negative. -/
theorem extended_gcd_g_nonneg_counterexample :
    extended_gcd (-5) 0 = (-5, 1, 0) ∧ (extended_gcd (-5) 0).1 < 0 := by
  decide

/-- C7 (amended): for all integers `a`, `b`, `extended_gcd a b` terminates
and returns `(g, x, y)` with `a*x + b*y = g`; `g ≥ 0` holds whenever
`b > 0`, or `b = 0` and `a ≥ 0` (for `b ≤ 0` the sign of `g` follows the
sign of the inputs instead). -/
theorem extended_gcd_bezout_and_sign (a b : Int) :
    a * (extended_gcd a b).2.1 + b * (extended_gcd a b).2.2 = (extended_gcd a b).1 ∧
    (0 < b ∨ (b = 0 ∧ 0 ≤ a) → 0 ≤ (extended_gcd a b).1) := by
  refine ⟨extended_gcd_bezout a b, ?_⟩
  rintro (hb | ⟨hb, ha⟩)
  · exact le_of_lt (extended_gcd_pos a hb)
  · subst hb
    simpa [extended_gcd, egcdLoop] using ha

/-- C7 (witness): the amended theorem instantiated at `(-4, 6)`. -/
theorem extended_gcd_bezout_and_sign_witness :
    (-4 : Int) * (extended_gcd (-4) 6).2.1 + 6 * (extended_gcd (-4) 6).2.2 =
      (extended_gcd (-4) 6).1 ∧ 0 ≤ (extended_gcd (-4) 6).1 :=
  ⟨(extended_gcd_bezout_and_sign (-4) 6).1,
    (extended_gcd_bezout_and_sign (-4) 6).2 (Or.inl (by decide))⟩

/-! ## Claim C4 : mod_inverse -/

/-- C4: for every integer `a` and modulus `m > 1`, `mod_inverse a m`
raises (returns `none`) exactly when `gcd(a, m) ≠ 1`, and otherwise
returns the unique integer `r` with `0 ≤ r < m` and `a*r ≡ 1 (mod m)`. -/
theorem mod_inverse_correct (a : Int) {m : Int} (hm : 1 < m) :
    (mod_inverse a m = none ↔ Int.gcd a m ≠ 1) ∧
    ∀ r, mod_inverse a m = some r →
      0 ≤ r ∧ r < m ∧ (a * r).fmod m = 1 ∧
      ∀ r', 0 ≤ r' → r' < m → (a * r').fmod m = 1 → r' = r := by
  refine ⟨mod_inverse_none_iff a hm, ?_⟩
  intro r h
  obtain ⟨h0, h1, h2⟩ := mod_inverse_some_spec hm h
  refine ⟨h0, h1, h2, ?_⟩
  intro r' h0' h1' h2'
  have hg : Int.gcd a m = 1 := by
    by_contra hg
    have hnone := (mod_inverse_none_iff a hm).mpr hg
    rw [h] at hnone
    exact Option.noConfusion hnone
  exact mod_inverse_unique hm hg h2' h2 h0' h1' h0 h1

/-- C4 (witness): the theorem instantiated at `a = 7`, `m = 26`; the
computed inverse is `15`. -/
theorem mod_inverse_correct_witness :
    mod_inverse 7 26 = some 15 ∧
    (0 ≤ (15 : Int) ∧ (15 : Int) < 26 ∧ ((7 : Int) * 15).fmod 26 = 1 ∧
      ∀ r', 0 ≤ r' → r' < 26 → ((7 : Int) * r').fmod 26 = 1 → r' = 15) :=
  ⟨by decide, (mod_inverse_correct 7 (by decide)).2 15 (by decide)⟩

/-! ## Helper lemmas: mod_pow -/

theorem int_pow_emod (a : Int) (k : Nat) (n : Int) :
    (a ^ k) % n = ((a % n) ^ k) % n := by
  induction k with
  | zero => rfl
  | succ k ih =>
    calc (a ^ (k + 1)) % n = ((a ^ k % n) * (a % n)) % n := by
          rw [pow_succ, Int.mul_emod]
    _ = (((a % n) ^ k % n) * (a % n)) % n := by rw [ih]
    _ = (((a % n) ^ k % n) * ((a % n) % n)) % n := by
          rw [Int.emod_emod_of_dvd a dvd_rfl]
    _ = ((a % n) ^ k * (a % n)) % n := by rw [← Int.mul_emod]
    _ = ((a % n) ^ (k + 1)) % n := by rw [pow_succ]

theorem emod_mul_pow_emod (x y m : Int) (k : Nat) :
    ((x % m) * (y % m) ^ k) % m = (x * y ^ k) % m := by
  rw [Int.mul_emod, Int.emod_emod_of_dvd x dvd_rfl, ← int_pow_emod, ← Int.mul_emod]

theorem mul_pow_emod (x y m : Int) (k : Nat) :
    (x * (y % m) ^ k) % m = (x * y ^ k) % m := by
  rw [Int.mul_emod, ← int_pow_emod, ← Int.mul_emod]

theorem modPowLoop_eq (fuel : Nat) : ∀ result base e m : Int,
    0 ≤ m → 0 ≤ e → e.toNat < 2 ^ fuel →
    modPowLoop fuel result base e m =
      if e = 0 then result else (result * base ^ e.toNat) % m := by
  induction fuel with
  | zero =>
    intro result base e m hm he hlt
    have he0 : e = 0 := by omega
    simp [modPowLoop, he0]
  | succ fuel ih =>
    intro result base e m hm he hlt
    by_cases he0 : e = 0
    · simp [modPowLoop, he0]
    · have hepos : 0 < e := lt_of_le_of_ne he (Ne.symm he0)
      rw [if_neg he0]
      simp only [modPowLoop, if_pos hepos]
      have hfd : e.fdiv 2 = e / 2 := Int.fdiv_eq_ediv e (by norm_num)
      have hfm : e.fmod 2 = e % 2 := Int.fmod_eq_emod e (by norm_num)
      have he2 : 0 ≤ e / 2 := Int.ediv_nonneg he (by norm_num)
      have hlt2 : (e / 2).toNat < 2 ^ fuel := by
        have h2 : 2 ^ (fuel + 1) = 2 ^ fuel + 2 ^ fuel := by omega
        omega
      rw [hfd, hfm, ih _ _ _ _ hm he2 hlt2]
      rw [Int.fmod_eq_emod _ hm, Int.fmod_eq_emod _ hm]
      by_cases hz : e / 2 = 0
      · have he1 : e = 1 := by omega
        have hodd : e % 2 = 1 := by omega
        rw [if_pos hz, if_pos hodd, he1]
        norm_num
      · rw [if_neg hz]
        set k := (e / 2).toNat with hk
        by_cases hodd : e % 2 = 1
        · rw [if_pos hodd]
          rw [emod_mul_pow_emod (result * base) (base * base) m k]
          have hexp : e.toNat = 2 * k + 1 := by omega
          rw [hexp]
          congr 1
          ring
        · rw [if_neg hodd]
          rw [mul_pow_emod result (base * base) m k]
          have hexp : e.toNat = 2 * k := by omega
          rw [hexp]
          congr 1
          ring

theorem mod_pow_eq {base e m : Int} (he : 0 ≤ e) (hm : 0 < e ∨ 1 < m) (hmpos : 0 < m) :
    mod_pow base e m = (base ^ e.toNat).fmod m := by
  have hmle : (0 : Int) ≤ m := le_of_lt hmpos
  have h := modPowLoop_eq e.toNat 1 (base.fmod m) e m hmle he (Nat.lt_two_pow _)
  rw [mod_pow, h, Int.fmod_eq_emod (base ^ e.toNat) hmle]
  by_cases he0 : e = 0
  · subst he0
    rcases hm with hm | hm
    · omega
    · have hz : base ^ (0 : Int).toNat % m = 1 % m := by norm_num
      rw [if_pos rfl, hz, Int.emod_eq_of_lt (by omega) (by omega)]
  · rw [if_neg he0, one_mul, Int.fmod_eq_emod base hmle, ← int_pow_emod]

/-! ## Claim C8 : mod_pow -/

/-- C8 (counterexample): for modulus `1` and exponent `0` the claim fails:
the `while` loop is skipped and the unreduced initial `result = 1` is
returned, but `base ^ 0 mod 1 = 0`, and `1` does not lie in `[0, 1)`. -/
theorem mod_pow_counterexample :
    mod_pow 0 0 1 = 1 ∧ ((0 : Int) ^ ((0 : Int)).toNat).fmod 1 = 0 ∧
      ¬ mod_pow 0 0 1 < 1 := by
  decide

/-- C8 (amended): for every integer `base`, every exponent `≥ 0` and
every modulus `≥ 1`, except in the single corner case
`modulus = 1 ∧ exponent = 0` (where `mod_pow` returns `1` instead of `0`),
`mod_pow base exponent modulus` returns `base ^ exponent mod modulus` and
the result lies in `[0, modulus)`. -/
theorem mod_pow_correct {base e m : Int} (he : 0 ≤ e) (hm : 1 ≤ m)
    (hnc : 2 ≤ m ∨ 0 < e) :
    mod_pow base e m = (base ^ e.toNat).fmod m ∧
    0 ≤ mod_pow base e m ∧ mod_pow base e m < m := by
  have hmpos : (0 : Int) < m := by omega
  have heq : mod_pow base e m = (base ^ e.toNat).fmod m := by
    apply mod_pow_eq he _ hmpos
    rcases hnc with h | h
    · exact Or.inr (by omega)
    · exact Or.inl h
  refine ⟨heq, ?_, ?_⟩
  · rw [heq]
    exact Int.fmod_nonneg' _ hmpos
  · rw [heq]
    exact Int.fmod_lt_of_pos _ hmpos

/-- C8 (witness): the amended theorem at the spec's own RSA vector
`mod_pow 65 17 3233 = 2790`. -/
theorem mod_pow_correct_witness :
    mod_pow 65 17 3233 = ((65 : Int) ^ ((17 : Int)).toNat).fmod 3233 ∧
    0 ≤ mod_pow 65 17 3233 ∧ mod_pow 65 17 3233 < 3233 :=
  mod_pow_correct (by decide) (by decide) (Or.inl (by decide))

/-! ## Claim C5 : Pollard p-1 -/

theorem pollardLoop_sound (steps : Nat) : ∀ n a j d : Int,
    pollardLoop steps n a j = some d → 1 < d ∧ d < n ∧ d ∣ n := by
  induction steps with
  | zero => intro n a j d h; exact absurd h (by simp [pollardLoop])
  | succ steps ih =>
    intro n a j d h
    simp only [pollardLoop] at h
    split_ifs at h with hc
    · obtain rfl := Option.some.inj h
      exact ⟨hc.1, hc.2, by exact_mod_cast Int.gcd_dvd_right⟩
    · exact ih n _ _ d h

/-- C5: for `n > 1` and `B ≥ 2`, whenever `factor_pollard_p1 n B` returns
a non-sentinel value `d` (from the first step whose gcd qualifies), that
`d` satisfies `1 < d < n` and `d ∣ n`; when no step qualifies the function
returns the `None` sentinel rather than raising (in the model it is a
total function into `Option`). -/
theorem factor_pollard_p1_sound {n B : Int} (_hn : 1 < n) (_hB : 2 ≤ B) :
    ∀ d, factor_pollard_p1 n B = some d → 1 < d ∧ d < n ∧ d ∣ n :=
  fun d h => pollardLoop_sound (B - 1).toNat n 2 2 d h

/-- C5 (witness): the spec's own vector `factor_pollard_p1 8051 10` finds
a factor of `8051 = 83 * 97`. -/
theorem factor_pollard_p1_sound_witness :
    factor_pollard_p1 8051 10 = some 97 ∧
      1 < (97 : Int) ∧ (97 : Int) < 8051 ∧ (97 : Int) ∣ 8051 :=
  ⟨by decide, @factor_pollard_p1_sound 8051 10 (by decide) (by decide) 97 (by decide)⟩

/-! ## Claim C10 : Miller-Rabin with zero rounds -/

/-- C10: with the round count set to 0 (empty witness list), every odd
`n > 3` not divisible by 3 is reported "probably prime", composites
included, because all composite detection beyond the trial checks for 2
and 3 lives in the skipped witness rounds. -/
theorem miller_rabin_zero_rounds (n : Int) (h3 : 3 < n) (hodd : n.fmod 2 = 1)
    (h3d : n.fmod 3 ≠ 0) : miller_rabin n [] = true := by
  have e1 : ¬(n ≤ 1) := by omega
  have e2 : ¬(n ≤ 3) := by omega
  have e3 : ¬(n.fmod 2 = 0) := by rw [hodd]; norm_num
  rw [miller_rabin, if_neg e1, if_neg e2, if_neg e3, if_neg h3d]
  rfl

/-- C10 (witness): the composites 25 and 49 pass with zero rounds. -/
theorem miller_rabin_zero_rounds_witness :
    ¬ Nat.Prime 25 ∧ miller_rabin 25 [] = true ∧
    ¬ Nat.Prime 49 ∧ miller_rabin 49 [] = true :=
  ⟨by decide, miller_rabin_zero_rounds 25 (by decide) (by decide) (by decide),
   by decide, miller_rabin_zero_rounds 49 (by decide) (by decide) (by decide)⟩

/-! ## Claim C6 : Miller-Rabin fixed vectors -/

theorem mrRound_101 : ∀ a : Nat, a < 98 → mrRound 101 25 2 ((a : Int) + 2) = true := by
  decide

/-- C6: the spec's fixed vectors hold regardless of the random witness
draws: `miller_rabin 1 = false`, `miller_rabin 2 = true`,
`miller_rabin 100 = false` for every list of draws, and for 101 every
witness in `[2, 99]` (the range of `random.randint(2, n - 2)`) passes,
so the result is `true` for every draw. -/
theorem miller_rabin_fixed_vectors (ws : List Int) :
    miller_rabin 1 ws = false ∧ miller_rabin 2 ws = true ∧
    miller_rabin 100 ws = false ∧
    ((∀ a ∈ ws, 2 ≤ a ∧ a ≤ 99) → miller_rabin 101 ws = true) := by
  refine ⟨rfl, rfl, rfl, ?_⟩
  intro hws
  have e1 : ¬((101 : Int) ≤ 1) := by decide
  have e2 : ¬((101 : Int) ≤ 3) := by decide
  have e3 : ¬(Int.fmod 101 2 = 0) := by decide
  have e4 : ¬(Int.fmod 101 3 = 0) := by decide
  have hd : oddifyLoop ((101 : Int) - 1).toNat ((101 : Int) - 1) 0 = (25, 2) := by decide
  rw [miller_rabin, if_neg e1, if_neg e2, if_neg e3, if_neg e4]
  show ws.all (mrRound 101 (oddifyLoop ((101 : Int) - 1).toNat ((101 : Int) - 1) 0).1
    (oddifyLoop ((101 : Int) - 1).toNat ((101 : Int) - 1) 0).2) = true
  rw [hd, List.all_eq_true]
  intro a ha
  obtain ⟨h2, h99⟩ := hws a ha
  obtain ⟨b, hb, rfl⟩ : ∃ b : Nat, b < 98 ∧ a = (b : Int) + 2 :=
    ⟨(a - 2).toNat, by omega, by omega⟩
  exact mrRound_101 b hb

/-- C6 (witness): the vectors instantiated at the concrete draw list
`[2, 50, 99]`. -/
theorem miller_rabin_fixed_vectors_witness :
    miller_rabin 100 [2, 50, 99] = false ∧ miller_rabin 101 [2, 50, 99] = true :=
  ⟨(miller_rabin_fixed_vectors [2, 50, 99]).2.2.1,
   (miller_rabin_fixed_vectors [2, 50, 99]).2.2.2 (by decide)⟩

/-! ## Claim C3 : BBS sequence continuation -/

theorem bbsLoop_length (n : Int) (k : Nat) : ∀ x : Int, (bbsLoop n k x).1.length = k := by
  induction k with
  | zero => intro x; rfl
  | succ k ih => intro x; simp [bbsLoop, ih]

theorem bbsLoop_split (n : Int) (a b : Nat) : ∀ x : Int,
    bbsLoop n (a + b) x =
      ((bbsLoop n a x).1 ++ (bbsLoop n b (bbsLoop n a x).2).1,
        (bbsLoop n b (bbsLoop n a x).2).2) := by
  induction a with
  | zero => intro x; simp [bbsLoop]
  | succ a ih =>
    intro x
    have harith : a + 1 + b = (a + b) + 1 := by omega
    rw [harith]
    simp only [bbsLoop]
    rw [ih (pyPow x 2 n)]
    rfl

theorem bbsLoop_gcd (n : Int) (k : Nat) : ∀ x : Int, Int.gcd x n = 1 →
    Int.gcd (bbsLoop n k x).2 n = 1 := by
  induction k with
  | zero => intro x h; exact h
  | succ k ih =>
    intro x h
    simp only [bbsLoop]
    refine ih (pyPow x 2 n) ?_
    rw [pyPow, int_gcd_fmod]
    show Nat.Coprime ((x ^ (2 : Int).toNat).natAbs) n.natAbs
    rw [Int.natAbs_pow]
    exact Nat.Coprime.pow_left _ h

theorem gcd_pyPow_sq {x n : Int} (h : Int.gcd x n = 1) : Int.gcd (pyPow x 2 n) n = 1 := by
  rw [pyPow, int_gcd_fmod]
  show Nat.Coprime ((x ^ (2 : Int).toNat).natAbs) n.natAbs
  rw [Int.natAbs_pow]
  exact Nat.Coprime.pow_left _ h

theorem blum_blum_shub_eq (p q s : Int) (k : Nat) (hp : p.fmod 4 = 3)
    (hq : q.fmod 4 = 3) (hg : Int.gcd s (p * q) = 1) :
    blum_blum_shub p q s k = some (bbsLoop (p * q) k (pyPow s 2 (p * q))) := by
  rw [blum_blum_shub, if_neg (fun hc => hc hp), if_neg (fun hc => hc hq)]
  show (if Int.gcd s (p * q) ≠ 1 then none else _) = _
  rw [if_neg (fun hc => hc hg)]

/-- C3 (counterexample): the generator is not sequence-continuing.  With
the valid state `p = 7`, `q = 11` (both Blum primes), seed `3` coprime to
`77`: a call of 1 bit then a call of 1 bit from the updated state yield
`[0]` and `[1]`, but a single call of 2 bits yields `[0, 0]`—the extra
squaring `x = pow(seed, 2, n)` at the start of the second call skips one
output of the squaring chain. -/
theorem bbs_sequence_continuation_counterexample :
    Nat.Prime 7 ∧ Nat.Prime 11 ∧ (7 : Int).fmod 4 = 3 ∧ (11 : Int).fmod 4 = 3 ∧
    Int.gcd 3 (7 * 11) = 1 ∧
    blum_blum_shub 7 11 3 1 = some ([0], 4) ∧
    blum_blum_shub 7 11 4 1 = some ([1], 25) ∧
    blum_blum_shub 7 11 3 2 = some ([0, 0], 16) ∧
    ([0] ++ [1] : List Int) ≠ [0, 0] := by
  decide

/-- C3 (amended): calling the generator with count `a` and then, on the
resulting state, with count `b` produces exactly the bit sequence of a
single call with count `a + b + 1` from the same initial state with the
bit at index `a` deleted (one squaring output is skipped at the call
boundary). -/
theorem bbs_two_calls (p q s : Int) (a b : Nat) (hp : p.fmod 4 = 3)
    (hq : q.fmod 4 = 3) (hg : Int.gcd s (p * q) = 1) :
    ∃ r1 r2 rfull,
      blum_blum_shub p q s a = some r1 ∧
      blum_blum_shub p q r1.2 b = some r2 ∧
      blum_blum_shub p q s (a + b + 1) = some rfull ∧
      rfull.1.length = a + b + 1 ∧
      rfull.1.eraseIdx a = r1.1 ++ r2.1 := by
  set n := p * q with hn
  set r1 := bbsLoop n a (pyPow s 2 n) with hr1
  have hg1 : Int.gcd r1.2 n = 1 := bbsLoop_gcd n a _ (gcd_pyPow_sq hg)
  set r2 := bbsLoop n b (pyPow r1.2 2 n) with hr2
  set rfull := bbsLoop n (a + b + 1) (pyPow s 2 n) with hrfull
  refine ⟨r1, r2, rfull, blum_blum_shub_eq p q s a hp hq hg,
    blum_blum_shub_eq p q r1.2 b hp hq hg1,
    blum_blum_shub_eq p q s (a + b + 1) hp hq hg, bbsLoop_length n _ _, ?_⟩
  have hsplit := bbsLoop_split n a (b + 1) (pyPow s 2 n)
  have harith : a + b + 1 = a + (b + 1) := by omega
  rw [hrfull, harith, hsplit]
  show ((bbsLoop n a (pyPow s 2 n)).1 ++
      (bbsLoop n (b + 1) r1.2).1).eraseIdx a = r1.1 ++ r2.1
  have hlen : (bbsLoop n a (pyPow s 2 n)).1.length = a := bbsLoop_length n a _
  rw [List.eraseIdx_append_of_length_le (le_of_eq hlen), hlen]
  show r1.1 ++ ((pyPow r1.2 2 n).fmod 2 :: r2.1).eraseIdx (a - a) = r1.1 ++ r2.1
  have hz : a - a = 0 := by omega
  rw [hz, List.eraseIdx_cons_zero]

/-- C3 (witness): the amended theorem at the counterexample's state. -/
theorem bbs_two_calls_witness :
    ∃ r1 r2 rfull,
      blum_blum_shub 7 11 3 1 = some r1 ∧
      blum_blum_shub 7 11 r1.2 1 = some r2 ∧
      blum_blum_shub 7 11 3 (1 + 1 + 1) = some rfull ∧
      rfull.1.length = 1 + 1 + 1 ∧
      rfull.1.eraseIdx 1 = r1.1 ++ r2.1 :=
  bbs_two_calls 7 11 3 1 1 (by decide) (by decide) (by decide)

/-! ## Helper lemmas: casting into ZMod -/

theorem cast_fmod_zmod (a : Int) (p : ℕ) :
    (((a.fmod ((p : ℕ) : Int)) : Int) : ZMod p) = (a : ZMod p) := by
  rw [Int.fmod_eq_emod _ (Int.natCast_nonneg p)]
  exact (ZMod.intCast_eq_intCast_iff _ _ _).mpr (Int.mod_modEq _ _)

theorem cast_pyPow_zmod (a e : Int) (p : ℕ) :
    ((pyPow a e ((p : ℕ) : Int)) : ZMod p) = (a : ZMod p) ^ e.toNat := by
  rw [pyPow, cast_fmod_zmod]
  push_cast
  ring

theorem int_eq_of_cast_zmod_eq {p : ℕ} {a b : Int} (h : (a : ZMod p) = b)
    (ha : 0 ≤ a) (ha2 : a < (p : Int)) (hb : 0 ≤ b) (hb2 : b < (p : Int)) :
    a = b := by
  have h1 := (ZMod.intCast_eq_intCast_iff a b p).mp h
  have h2 : a % ((p : ℕ) : Int) = b % ((p : ℕ) : Int) := h1
  rwa [Int.emod_eq_of_lt ha ha2, Int.emod_eq_of_lt hb hb2] at h2

theorem int_gcd_prime_eq_one {p : ℕ} (hp : p.Prime) {s : Int}
    (h : ¬ ((p : ℕ) : Int) ∣ s) : Int.gcd s ((p : ℕ) : Int) = 1 := by
  have hns : ¬ p ∣ s.natAbs := by
    intro hc
    exact h (Int.dvd_natAbs.mp (Int.natCast_dvd_natCast.mpr hc))
  have h1 := (Nat.Prime.coprime_iff_not_dvd hp).mpr hns
  have h2 : Nat.Coprime s.natAbs p := Nat.Coprime.symm h1
  show Nat.gcd s.natAbs (((p : ℕ) : Int)).natAbs = 1
  rwa [Int.natAbs_ofNat]

/-! ## Claim C2 : ElGamal round trip -/

/-- C2: for every prime `p`, every `g` with `1 < g < p`, every message
`0 < m < p`, every secret exponent `x ∈ [1, p-2]` drawn by
`elgamal_keygen` and every ephemeral `k ∈ [1, p-2]` drawn by
`elgamal_encrypt`: decrypting the ciphertext with the generated private
key recovers `m` exactly. -/
theorem elgamal_round_trip (p : ℕ) (g x k m : Int) (pub : ElGamalPublicKey)
    (priv : ElGamalPrivateKey) (c : Int × Int) (hp : p.Prime)
    (hg1 : 1 < g) (hg2 : g < (p : Int)) (_hx1 : 1 ≤ x) (_hx2 : x ≤ (p : Int) - 2)
    (_hk1 : 1 ≤ k) (_hk2 : k ≤ (p : Int) - 2) (hm1 : 0 < m) (hm2 : m < (p : Int))
    (hkey : elgamal_keygen ((p : ℕ) : Int) g x = some (pub, priv))
    (henc : elgamal_encrypt m pub k = some c) :
    elgamal_decrypt c priv = some m := by
  haveI : Fact p.Prime := ⟨hp⟩
  have hple : ¬ (((p : ℕ) : Int) ≤ 2) := by omega
  rw [elgamal_keygen, if_neg hple, if_neg (not_not_intro ⟨hg1, hg2⟩)] at hkey
  obtain ⟨hpub, hpriv⟩ := Prod.mk.injEq .. ▸ Option.some.inj hkey
  subst hpub
  subst hpriv
  rw [elgamal_encrypt] at henc
  rw [if_neg (not_not_intro ⟨hm1, hm2⟩)] at henc
  obtain rfl := Option.some.inj henc
  set pZ : Int := ((p : ℕ) : Int) with hpZ
  -- the shared secret computed during decryption
  set s : Int := pyPow (pyPow g k pZ) x pZ with hs
  have hcast_s : (s : ZMod p) = ((g : ZMod p) ^ k.toNat) ^ x.toNat := by
    rw [hs, cast_pyPow_zmod, cast_pyPow_zmod]
  have hgz : (g : ZMod p) ≠ 0 := by
    intro hc
    have hdvd := (ZMod.intCast_zmod_eq_zero_iff_dvd g p).mp hc
    have := Int.le_of_dvd (by omega) hdvd
    omega
  have hsz : (s : ZMod p) ≠ 0 := by
    rw [hcast_s]
    exact pow_ne_zero _ (pow_ne_zero _ hgz)
  have hsd : ¬ (pZ ∣ s) := fun hc =>
    hsz ((ZMod.intCast_zmod_eq_zero_iff_dvd s p).mpr hc)
  have hgcd : Int.gcd s pZ = 1 := int_gcd_prime_eq_one hp hsd
  have hp1 : (1 : Int) < pZ := by
    have := hp.one_lt
    omega
  obtain ⟨si, hsi⟩ := mod_inverse_gcd_one hp1 hgcd
  obtain ⟨hsi0, hsi1, hsi2⟩ := mod_inverse_some_spec hp1 hsi
  -- unfold the decryption
  rw [elgamal_decrypt]
  show (match mod_inverse s pZ with
    | none => none
    | some s_inv => some (((m * pyPow (pyPow g x pZ) k pZ).fmod pZ * s_inv).fmod pZ)) = some m
  rw [hsi]
  refine congrArg some ?_
  -- the recovered value equals m in ZMod p, and both are in [0, p)
  have hpz0 : (0 : Int) < pZ := by omega
  apply int_eq_of_cast_zmod_eq _ (Int.fmod_nonneg' _ hpz0) (Int.fmod_lt_of_pos _ hpz0)
    (le_of_lt hm1) hm2
  have hsinv : (s : ZMod p) * (si : ZMod p) = 1 := by
    have : ((s * si : Int) : ZMod p) = ((1 : Int) : ZMod p) := by
      rw [← cast_fmod_zmod (s * si) p, hsi2]
    push_cast at this
    simpa using this
  rw [cast_fmod_zmod]
  push_cast
  rw [cast_fmod_zmod]
  push_cast
  rw [cast_pyPow_zmod, cast_pyPow_zmod]
  -- goal: m * (g^x)^k * si = m in ZMod p
  have hcomm : ((g : ZMod p) ^ x.toNat) ^ k.toNat = (s : ZMod p) := by
    rw [hcast_s, ← pow_mul, ← pow_mul, Nat.mul_comm]
  rw [hcomm, mul_assoc, hsinv, mul_one]

/-- C2 (witness): the round trip at `p = 5`, `g = 2`, `x = 1`, `k = 1`,
`m = 3`; the ciphertext is `(2, 1)` and decryption returns `3`. -/
theorem elgamal_round_trip_witness :
    elgamal_decrypt (2, 1) { p := 5, g := 2, x := 1 } = some 3 :=
  elgamal_round_trip 5 2 1 1 3 { p := 5, g := 2, y := 2 } { p := 5, g := 2, x := 1 }
    (2, 1) (by norm_num) (by decide) (by decide) (by decide) (by decide) (by decide)
    (by decide) (by decide) (by decide) (by decide) (by decide)

/-! ## Claim C9 : string encoding round trip -/

theorem fromBytes_acc (bs : List Nat) : ∀ acc : Nat,
    List.foldl (fun a c => a * 256 + c) acc bs = acc * 256 ^ bs.length + fromBytes bs := by
  induction bs with
  | nil => intro acc; simp [fromBytes]
  | cons c t ih =>
    intro acc
    show List.foldl (fun a c => a * 256 + c) (acc * 256 + c) t = _
    rw [ih (acc * 256 + c)]
    have hfb : fromBytes (c :: t) = c * 256 ^ t.length + fromBytes t := by
      show List.foldl (fun a c => a * 256 + c) (0 * 256 + c) t = _
      rw [ih (0 * 256 + c)]
      ring_nf
    rw [hfb]
    simp [List.length_cons, pow_succ]
    ring

theorem fromBytes_cons (c : Nat) (t : List Nat) :
    fromBytes (c :: t) = c * 256 ^ t.length + fromBytes t := by
  show List.foldl (fun a c => a * 256 + c) (0 * 256 + c) t = _
  rw [fromBytes_acc t (0 * 256 + c)]
  ring_nf

theorem fromBytes_lt (bs : List Nat) (h : ∀ b ∈ bs, b < 256) :
    fromBytes bs < 256 ^ bs.length := by
  induction bs with
  | nil => simp [fromBytes]
  | cons c t ih =>
    have hc : c < 256 := h c (List.mem_cons_self c t)
    have ht := ih (fun b hb => h b (List.mem_cons_of_mem c hb))
    rw [fromBytes_cons]
    have : 256 ^ (c :: t).length = 256 * 256 ^ t.length := by
      rw [List.length_cons, pow_succ]
      ring
    rw [this]
    nlinarith

theorem fromBytes_ge (c : Nat) (t : List Nat) (hc : c ≠ 0) :
    256 ^ t.length ≤ fromBytes (c :: t) := by
  rw [fromBytes_cons]
  have h1 : 1 ≤ c := Nat.one_le_iff_ne_zero.mpr hc
  calc 256 ^ t.length = 1 * 256 ^ t.length := by ring
  _ ≤ c * 256 ^ t.length := Nat.mul_le_mul_right _ h1
  _ ≤ c * 256 ^ t.length + fromBytes t := Nat.le_add_right _ _

theorem bitLenLoop_le_iff : ∀ fuel n, n ≤ fuel → ∀ m : Nat,
    (bitLenLoop fuel n ≤ m ↔ n < 2 ^ m) := by
  intro fuel
  induction fuel with
  | zero =>
    intro n hn m
    have hz : n = 0 := by omega
    subst hz
    simp only [bitLenLoop]
    have := pow_pos (show 0 < 2 by norm_num) m
    omega
  | succ fuel ih =>
    intro n hn m
    by_cases hz : n = 0
    · subst hz
      have h0 : bitLenLoop (fuel + 1) 0 = 0 := rfl
      rw [h0]
      have := pow_pos (show 0 < 2 by norm_num) m
      omega
    · simp only [bitLenLoop, if_neg hz]
      cases m with
      | zero =>
        simp only [pow_zero]
        omega
      | succ m =>
        have h2 : n / 2 ≤ fuel := by omega
        have hiff := ih (n / 2) h2 m
        have hp : 2 ^ (m + 1) = 2 ^ m * 2 := by rw [pow_succ]
        constructor
        · intro h
          have := hiff.mp (by omega)
          omega
        · intro h
          have h3 : n / 2 < 2 ^ m := by omega
          have := hiff.mpr h3
          omega

theorem bitLength_le_iff (n m : Nat) : bitLength n ≤ m ↔ n < 2 ^ m :=
  bitLenLoop_le_iff n n le_rfl m

theorem toBytesLoop_fromBytes (bs : List Nat) (h : ∀ b ∈ bs, b < 256) :
    toBytesLoop bs.length (fromBytes bs) = bs.reverse := by
  induction bs using List.reverseRecOn with
  | nil => rfl
  | append_singleton t b ih =>
    have hb : b < 256 := h b (by simp)
    have hfb : fromBytes (t ++ [b]) = fromBytes t * 256 + b := by
      show List.foldl (fun a c => a * 256 + c) 0 (t ++ [b]) = _
      rw [List.foldl_append]
      rfl
    have hlen : (t ++ [b]).length = t.length + 1 := by simp
    rw [hfb, hlen]
    show (fromBytes t * 256 + b) % 256 :: toBytesLoop t.length ((fromBytes t * 256 + b) / 256) =
      (t ++ [b]).reverse
    have hmod : (fromBytes t * 256 + b) % 256 = b := by
      rw [Nat.add_comm, Nat.add_mul_mod_self_right, Nat.mod_eq_of_lt hb]
    have hdiv : (fromBytes t * 256 + b) / 256 = fromBytes t := by
      rw [Nat.add_comm, Nat.add_mul_div_right _ _ (by norm_num : 0 < 256),
        Nat.div_eq_of_lt hb]
      omega
    rw [hmod, hdiv, ih (fun c hc => h c (List.mem_append_left _ hc))]
    simp

theorem decode_len_eq (c : Nat) (t : List Nat) (hc : c ≠ 0)
    (h : ∀ b ∈ c :: t, b < 256) :
    (bitLength (fromBytes (c :: t)) + 7) / 8 = (c :: t).length := by
  have hpow : (256 : Nat) ^ (c :: t).length = 2 ^ (8 * (c :: t).length) := by
    rw [pow_mul]
    norm_num
  have hpow2 : (256 : Nat) ^ t.length = 2 ^ (8 * t.length) := by
    rw [pow_mul]
    norm_num
  have hlt : fromBytes (c :: t) < 2 ^ (8 * (c :: t).length) := by
    rw [← hpow]
    exact fromBytes_lt (c :: t) h
  have hge : 2 ^ (8 * t.length) ≤ fromBytes (c :: t) := by
    rw [← hpow2]
    exact fromBytes_ge c t hc
  have hub : bitLength (fromBytes (c :: t)) ≤ 8 * (c :: t).length :=
    (bitLength_le_iff _ _).mpr hlt
  have hlb : ¬ (bitLength (fromBytes (c :: t)) ≤ 8 * t.length) := by
    intro hcon
    have := (bitLength_le_iff _ _).mp hcon
    omega
  have hlen : (c :: t).length = t.length + 1 := rfl
  omega

/-- C9: after identifying a string with its UTF-8 byte sequence (the
runtime codec), `decode_int_to_string (encode_string_to_int s) = s` for
every valid UTF-8 byte string whose first byte is non-zero, and also for
the empty string (`head? ≠ some 0` covers both); and decoding an integer
whose recovered bytes are not valid UTF-8 fails with an error (`none`). -/
theorem encode_decode_round_trip :
    (∀ bs : List Nat, validUTF8 bs = true → (∀ b ∈ bs, b < 256) →
      bs.head? ≠ some 0 →
      decode_int_to_string (encode_string_to_int bs) = some bs) ∧
    (∀ n : Nat, validUTF8 (toBytesBE ((bitLength n + 7) / 8) n) = false →
      decode_int_to_string n = none) := by
  constructor
  · intro bs hvalid hbytes hhead
    cases bs with
    | nil => decide
    | cons c t =>
      have hc : c ≠ 0 := by
        intro hc0
        subst hc0
        exact hhead rfl
      have hlen := decode_len_eq c t hc hbytes
      rw [decode_int_to_string, encode_string_to_int] at *
      rw [hlen]
      have hover : ¬ (256 ^ (c :: t).length ≤ fromBytes (c :: t)) :=
        not_le_of_lt (fromBytes_lt (c :: t) hbytes)
      rw [if_neg hover]
      have hbe : toBytesBE (c :: t).length (fromBytes (c :: t)) = c :: t := by
        rw [toBytesBE, toBytesLoop_fromBytes (c :: t) hbytes, List.reverse_reverse]
      rw [hbe, if_pos hvalid]
  · intro n hinvalid
    rw [decode_int_to_string]
    by_cases hover : 256 ^ ((bitLength n + 7) / 8) ≤ n
    · rw [if_pos hover]
    · rw [if_neg hover, if_neg (by rw [hinvalid]; exact Bool.false_ne_true)]

/-- C9 (witness): the round trip at the two-byte ASCII string "hi"
(bytes `[104, 105]`, encoded integer `26729`). -/
theorem encode_decode_round_trip_witness :
    decode_int_to_string (encode_string_to_int [104, 105]) = some [104, 105] :=
  encode_decode_round_trip.1 [104, 105] (by decide) (by decide) (by decide)

/-! ## Helper lemmas: RSA CRT -/

theorem fmod_modEq (x : Int) {m : Int} (hm : 0 ≤ m) : x.fmod m ≡ x [ZMOD m] := by
  rw [Int.fmod_eq_emod _ hm]
  exact Int.mod_modEq x m

theorem modEq_of_eq {a b m : Int} (h : a = b) : a ≡ b [ZMOD m] := by
  rw [h]

/-- Exponents congruent modulo the order of a root of unity give equal
powers. -/
theorem pow_eq_of_modEq_of_pow_eq_one {M : Type} [Monoid M] {u : M} {t : ℕ}
    (hu : u ^ t = 1) {x y : ℕ} (h : x ≡ y [MOD t]) : u ^ x = u ^ y := by
  have hx : u ^ x = u ^ (x % t) := by
    conv_lhs => rw [← Nat.div_add_mod x t]
    rw [pow_add, pow_mul, hu, one_pow, one_mul]
  have hy : u ^ y = u ^ (y % t) := by
    conv_lhs => rw [← Nat.div_add_mod y t]
    rw [pow_add, pow_mul, hu, one_pow, one_mul]
  unfold Nat.ModEq at h
  rw [hx, hy, h]

/-- Fermat exponent reduction: modulo a prime `p`, raising any integer to
`d` equals raising it to `d mod (p - 1)`, provided both exponents are
positive. -/
theorem pow_exponent_reduce {p : ℕ} (hp : p.Prime) {c d : ℤ} (hd0 : 0 < d)
    (hdp0 : 0 < d.fmod ((p : ℤ) - 1)) :
    c ^ d.toNat ≡ c ^ (d.fmod ((p : ℤ) - 1)).toNat [ZMOD ((p : ℕ) : ℤ)] := by
  haveI : Fact p.Prime := ⟨hp⟩
  have hp1 : (1 : ℤ) < (p : ℤ) := by exact_mod_cast hp.one_lt
  rw [← ZMod.intCast_eq_intCast_iff]
  push_cast
  by_cases hc : ((c : ℤ) : ZMod p) = 0
  · rw [hc, zero_pow (by omega), zero_pow (by omega)]
  · have hone : ((c : ℤ) : ZMod p) ^ (p - 1) = 1 := ZMod.pow_card_sub_one_eq_one hc
    have hcast : (((p - 1 : ℕ)) : ℤ) = (p : ℤ) - 1 := by
      have : 1 ≤ p := hp.one_lt.le
      push_cast [Nat.cast_sub this]
      ring
    have hmodZ : d.fmod ((p : ℤ) - 1) ≡ d [ZMOD ((p : ℤ) - 1)] :=
      fmod_modEq d (by omega)
    have hmodN : d.toNat ≡ (d.fmod ((p : ℤ) - 1)).toNat [MOD p - 1] := by
      rw [← Int.natCast_modEq_iff, Int.toNat_of_nonneg (le_of_lt hd0),
        Int.toNat_of_nonneg (le_of_lt hdp0), hcast]
      exact hmodZ.symm
    exact pow_eq_of_modEq_of_pow_eq_one hone hmodN

/-- Positivity of the reduced private exponent `d mod (m)` whenever
`e * d ≡ 1 (mod m * k)` for some `e` and `m > 1`. -/
theorem fmod_pos_of_bezout {m k e d : ℤ} (hm : 1 < m)
    (he : e * d ≡ 1 [ZMOD m * k]) : 0 < d.fmod m := by
  have hm0 : (0 : ℤ) < m := by omega
  rcases lt_or_eq_of_le (Int.fmod_nonneg' d hm0) with h | h
  · exact h
  · exfalso
    have hdvd : m ∣ d := by
      apply Int.dvd_of_emod_eq_zero
      rw [← Int.fmod_eq_emod d (le_of_lt hm0)]
      omega
    have he1 : e * d ≡ 1 [ZMOD m] := he.of_dvd (dvd_mul_right m k)
    have hdvd1 : m ∣ 1 := by
      have h2 : m ∣ 1 - e * d := Int.ModEq.dvd he1
      have h3 : m ∣ e * d := Dvd.dvd.mul_left hdvd e
      have h4 := dvd_add h2 h3
      simpa using h4
    have := Int.le_of_dvd one_pos hdvd1
    omega

/-- Correctness of the CRT recombination step: if `Mp`, `Mq` are congruent
to a common value `X` modulo the two coprime factors, Garner's formula
recovers `X mod p*q`. -/
theorem crt_combine {p q : ℕ} (hp1 : (1 : ℤ) < (p : ℤ)) (hq1 : (1 : ℤ) < (q : ℤ))
    (hcop : Nat.Coprime p q) {Mp Mq qi X : ℤ}
    (hqinv : ((q : ℤ) * qi).fmod (p : ℤ) = 1)
    (hMp : Mp ≡ X [ZMOD (p : ℤ)]) (hMq : Mq ≡ X [ZMOD (q : ℤ)]) :
    (Mq + (qi * (Mp - Mq)).fmod (p : ℤ) * (q : ℤ)).fmod ((p : ℤ) * (q : ℤ))
      = X.fmod ((p : ℤ) * (q : ℤ)) := by
  have hp0 : (0 : ℤ) ≤ (p : ℤ) := by omega
  have hq0 : (0 : ℤ) ≤ (q : ℤ) := by omega
  have hnn : (0 : ℤ) ≤ (p : ℤ) * (q : ℤ) := by positivity
  have hq_qi_one : (q : ℤ) * qi ≡ 1 [ZMOD (p : ℤ)] := by
    have h := fmod_modEq ((q : ℤ) * qi) hp0
    rw [hqinv] at h
    exact h.symm
  have h1 : Mq + (qi * (Mp - Mq)).fmod (p : ℤ) * (q : ℤ) ≡ X [ZMOD (p : ℤ)] :=
    calc Mq + (qi * (Mp - Mq)).fmod (p : ℤ) * (q : ℤ)
        ≡ Mq + qi * (Mp - Mq) * (q : ℤ) [ZMOD (p : ℤ)] :=
          Int.ModEq.add_left _ (Int.ModEq.mul_right _ (fmod_modEq _ hp0))
    _ = Mq + ((q : ℤ) * qi) * (Mp - Mq) := by ring
    _ ≡ Mq + 1 * (Mp - Mq) [ZMOD (p : ℤ)] :=
          Int.ModEq.add_left _ (Int.ModEq.mul_right _ hq_qi_one)
    _ = Mp := by ring
    _ ≡ X [ZMOD (p : ℤ)] := hMp
  have h2 : Mq + (qi * (Mp - Mq)).fmod (p : ℤ) * (q : ℤ) ≡ X [ZMOD (q : ℤ)] :=
    calc Mq + (qi * (Mp - Mq)).fmod (p : ℤ) * (q : ℤ)
        ≡ Mq + 0 [ZMOD (q : ℤ)] :=
          Int.ModEq.add_left _ (Int.modEq_zero_iff_dvd.mpr (dvd_mul_left _ _))
    _ = Mq := by ring
    _ ≡ X [ZMOD (q : ℤ)] := hMq
  have hcopZ : ((p : ℤ)).natAbs.Coprime ((q : ℤ)).natAbs := by
    rw [Int.natAbs_ofNat, Int.natAbs_ofNat]
    exact hcop
  have h3 := (Int.modEq_and_modEq_iff_modEq_mul hcopZ).mp ⟨h1, h2⟩
  rw [Int.fmod_eq_emod _ hnn, Int.fmod_eq_emod _ hnn]
  exact h3

/-! ## Claim C1 : RSA CRT decryption -/

/-- C1 (counterexample): the claim admits `p = 2`, where it fails.  With
`p = 2`, `q = 7`, `e = d = 5` (`e*d = 25 ≡ 1 (mod 1*6)`) and ciphertext
`c = 2`: `dp = 5 mod 1 = 0`, so `mp = 1` although `2^5 ≡ 0 (mod 2)`, and
the CRT recombination returns `11` while `mod_pow 2 5 14 = 4`. -/
theorem rsa_crt_counterexample :
    Nat.Prime 2 ∧ Nat.Prime 7 ∧ (2 : ℕ) ≠ 7 ∧ (0 : ℤ) ≤ 5 ∧
    (5 * 5 : ℤ) ≡ 1 [ZMOD ((2 : ℤ) - 1) * ((7 : ℤ) - 1)] ∧
    (0 : ℤ) ≤ 2 ∧ (2 : ℤ) < 2 * 7 ∧
    rsa_decrypt_crt 2 5 2 7 = some 11 ∧ mod_pow 2 5 (2 * 7) = 4 ∧
    (11 : ℤ) ≠ 4 := by
  decide

/-- C1 (amended): for every RSA key with *odd* distinct primes `p`, `q`
(`p, q > 2`), `n = p*q`, `e*d ≡ 1 (mod (p-1)(q-1))` with `d ≥ 0`
(cryptographic values are sign-free), and every ciphertext `0 ≤ c < n`,
the CRT decryption returns exactly the direct decryption
`mod_pow c d n`.  (For `p = 2` the reduction `dp = d mod (p-1) = 0`
breaks the claim, see the counterexample.) -/
theorem rsa_crt_equiv (p q : ℕ) (c d e : ℤ) (hp : p.Prime) (hq : q.Prime)
    (hpq : p ≠ q) (hp2 : 2 < p) (hq2 : 2 < q) (hd : 0 ≤ d)
    (he : e * d ≡ 1 [ZMOD ((p : ℤ) - 1) * ((q : ℤ) - 1)])
    (_hc0 : 0 ≤ c) (_hc1 : c < (p : ℤ) * (q : ℤ)) :
    rsa_decrypt_crt c d (p : ℤ) (q : ℤ) = some (mod_pow c d ((p : ℤ) * (q : ℤ))) := by
  have hp1 : (1 : ℤ) < (p : ℤ) := by exact_mod_cast hp.one_lt
  have hq1 : (1 : ℤ) < (q : ℤ) := by exact_mod_cast hq.one_lt
  have hp2Z : (2 : ℤ) < (p : ℤ) := by exact_mod_cast hp2
  have hq2Z : (2 : ℤ) < (q : ℤ) := by exact_mod_cast hq2
  have hn0 : (0 : ℤ) < (p : ℤ) * (q : ℤ) := by positivity
  have hphi : (4 : ℤ) ≤ ((p : ℤ) - 1) * ((q : ℤ) - 1) := by nlinarith
  have hd0 : 0 < d := by
    rcases lt_or_eq_of_le hd with h | h
    · exact h
    · exfalso
      have hdvdphi : ((p : ℤ) - 1) * ((q : ℤ) - 1) ∣ 1 - e * d := Int.ModEq.dvd he
      rw [← h] at hdvdphi
      simp only [mul_zero, sub_zero] at hdvdphi
      have := Int.le_of_dvd one_pos hdvdphi
      omega
  have hdp_pos : 0 < d.fmod ((p : ℤ) - 1) := fmod_pos_of_bezout (by omega) he
  have hdq_pos : 0 < d.fmod ((q : ℤ) - 1) := by
    have he' := he
    rw [mul_comm ((p : ℤ) - 1) ((q : ℤ) - 1)] at he'
    exact fmod_pos_of_bezout (by omega) he'
  have hgcdqp : Int.gcd (q : ℤ) (p : ℤ) = 1 := by
    show Nat.gcd ((q : ℤ)).natAbs ((p : ℤ)).natAbs = 1
    rw [Int.natAbs_ofNat, Int.natAbs_ofNat]
    exact (Nat.coprime_primes hq hp).mpr (Ne.symm hpq)
  obtain ⟨qi, hqi⟩ := mod_inverse_gcd_one hp1 hgcdqp
  obtain ⟨hqi0, hqi1, hqi2⟩ := mod_inverse_some_spec hp1 hqi
  simp only [rsa_decrypt_crt, hqi]
  rw [mod_pow_eq hd (Or.inl hd0) hn0,
    mod_pow_eq (le_of_lt hdp_pos) (Or.inl hdp_pos) (by omega),
    mod_pow_eq (le_of_lt hdq_pos) (Or.inl hdq_pos) (by omega)]
  refine congrArg some ?_
  have hMp : (c ^ (d.fmod ((p : ℤ) - 1)).toNat).fmod (p : ℤ) ≡
      c ^ d.toNat [ZMOD (p : ℤ)] :=
    (fmod_modEq _ (by omega)).trans (pow_exponent_reduce hp hd0 hdp_pos).symm
  have hMq : (c ^ (d.fmod ((q : ℤ) - 1)).toNat).fmod (q : ℤ) ≡
      c ^ d.toNat [ZMOD (q : ℤ)] :=
    (fmod_modEq _ (by omega)).trans (pow_exponent_reduce hq hd0 hdq_pos).symm
  exact crt_combine hp1 hq1 ((Nat.coprime_primes hp hq).mpr hpq) hqi2 hMp hMq

/-- C1 (witness): the amended theorem at `p = 3`, `q = 5`, `e = d = 3`,
`c = 2`; both decryptions give `8`. -/
theorem rsa_crt_equiv_witness :
    rsa_decrypt_crt 2 3 ((3 : ℕ) : ℤ) ((5 : ℕ) : ℤ) =
      some (mod_pow 2 3 (((3 : ℕ) : ℤ) * ((5 : ℕ) : ℤ))) :=
  rsa_crt_equiv 3 5 2 3 3 (by norm_num) (by norm_num) (by decide) (by decide)
    (by decide) (by decide) (by decide) (by decide) (by decide)
